import Mathlib

/-!
Verification of the LRU cache in `cppExamples/lru_cache.cpp`.

The C++ class `LRUCache` keeps
  * `list<Node> priorityQ` — the recency list, front = least recently used,
    back = most recently used, where `struct Node { int key; int val; }`;
  * `unordered_map<int, list<Node>::iterator> keyToNode` — the index from a
    key to the iterator (stable handle) of its node in `priorityQ`;
  * `const int capacity`.

We embed this shallowly.  A `list` iterator is a stable handle: it survives
insertions and erasures of *other* elements and dangles once its own element
is erased.  We model it by a node identifier (`Nat`), drawn fresh from a
counter `nextId`; `priorityQ` is a list of `(id, Node)` pairs and `keyToNode`
an association list from key to id.  `unordered_map` can never hold two
entries with the same key, and erasure/insertion are by key, which the
association-list operations below reproduce exactly.  Undefined behaviour of
the C++ (dereferencing or erasing an invalid iterator or map position,
`front`/`pop_front` on an empty list) is modelled by `Option`: `none` means
the C++ executes undefined behaviour at that point.
-/

namespace LRUSpec

/-- The list node: `struct Node { int key; int val; };` -/
structure Node where
  key : Int
  val : Int
deriving DecidableEq

/-- Lookup by first component in an association list.  Models both
`unordered_map::find` (on `keyToNode`) and iterator dereference
(on the id-tagged `priorityQ`). -/
def lookupFst {α β : Type} [BEq α] (l : List (α × β)) (a : α) : Option β :=
  (l.find? (fun p => p.1 == a)).map (fun p => p.2)

/-- Removal by first component.  Models `unordered_map::erase` (by key, at
most one entry per key can exist in the map) and `list::erase` at an
iterator (node ids are unique, so exactly the addressed node goes). -/
def eraseFst {α β : Type} [BEq α] (l : List (α × β)) (a : α) : List (α × β) :=
  l.filter (fun p => p.1 != a)

/-- `unordered_map::insert`: inserts only when the key is not yet present. -/
def mapInsert (m : List (Int × Nat)) (k : Int) (id : Nat) : List (Int × Nat) :=
  match lookupFst m k with
  | some _ => m
  | none => m ++ [(k, id)]

/-- The cache state: recency list (front = LRU end), index, and the fresh-id
counter that models iterator identity. -/
structure LRUCache where
  capacity : Int
  priorityQ : List (Nat × Node)
  keyToNode : List (Int × Nat)
  nextId : Nat
deriving DecidableEq

/-- `LRUCache(int _capacity) : capacity(_capacity) {}` — the constructor
stores the capacity and performs no validation whatsoever. -/
def mkLRUCache (capacity : Int) : LRUCache :=
  { capacity := capacity, priorityQ := [], keyToNode := [], nextId := 0 }

/-- `int get(int key)`: on a miss return `-1` and change nothing; on a hit
erase the node and its index entry, re-append the node at the back (most
recently used) with the same value, re-insert the index entry, and return
the value. -/
def LRUCache.get (c : LRUCache) (key : Int) : Option (Int × LRUCache) :=
  match lookupFst c.keyToNode key with
  | none => some (-1, c)
  | some id =>
    match lookupFst c.priorityQ id with
    | none => none
    | some nd =>
      let valToReturn := nd.val
      some (valToReturn,
        { c with
          priorityQ := eraseFst c.priorityQ id ++ [(c.nextId, ⟨key, valToReturn⟩)]
          keyToNode := mapInsert (eraseFst c.keyToNode key) key c.nextId
          nextId := c.nextId + 1 })

/-- `void put(int key, int value)`: if the map is at capacity and the key is
new, evict the front (least recently used) node and its index entry; if the
key exists, erase its node and index entry; finally append a fresh node at
the back and index it. -/
def LRUCache.put (c : LRUCache) (key value : Int) : Option LRUCache :=
  let kToNode := lookupFst c.keyToNode key
  let afterEvict : Option LRUCache :=
    if c.capacity = (c.keyToNode.length : Int) ∧ kToNode = none then
      match c.priorityQ with
      | [] => none
      | front :: restQ =>
        match lookupFst c.keyToNode front.2.key with
        | none => none
        | some _ =>
          some { c with
                 keyToNode := eraseFst c.keyToNode front.2.key
                 priorityQ := restQ }
    else some c
  match afterEvict with
  | none => none
  | some c1 =>
    let afterErase : Option LRUCache :=
      match kToNode with
      | none => some c1
      | some id =>
        match lookupFst c1.priorityQ id with
        | none => none
        | some _ =>
          some { c1 with
                 priorityQ := eraseFst c1.priorityQ id
                 keyToNode := eraseFst c1.keyToNode key }
    match afterErase with
    | none => none
    | some c2 =>
      some { c2 with
             priorityQ := c2.priorityQ ++ [(c2.nextId, ⟨key, value⟩)]
             keyToNode := mapInsert c2.keyToNode key c2.nextId
             nextId := c2.nextId + 1 }

/-- The keys currently on the recency list, front (LRU) first. -/
def qKeys (q : List (Nat × Node)) : List Int :=
  q.map (fun p => p.2.key)

/-- A single public call, for reasoning about call sequences. -/
inductive Op where
  | get (key : Int) : Op
  | put (key value : Int) : Op
deriving DecidableEq

/-- Execute one call, keeping only the state. -/
def LRUCache.step (c : LRUCache) : Op → Option LRUCache
  | Op.get k => (c.get k).map (fun p => p.2)
  | Op.put k v => c.put k v

/-- Execute a sequence of calls. -/
def LRUCache.run (c : LRUCache) : List Op → Option LRUCache
  | [] => some c
  | op :: ops =>
    match c.step op with
    | none => none
    | some c' => c'.run ops

/-! ### Association-list lemmas for `lookupFst` / `eraseFst` -/

section AssocLemmas

variable {α β : Type} [BEq α] [LawfulBEq α]

theorem lookupFst_nil (a : α) : lookupFst ([] : List (α × β)) a = none := rfl

theorem lookupFst_cons (x : α × β) (xs : List (α × β)) (a : α) :
    lookupFst (x :: xs) a = if x.1 == a then some x.2 else lookupFst xs a := by
  by_cases h : (x.1 == a) = true
  · simp [lookupFst, List.find?, h]
  · rw [Bool.not_eq_true] at h
    simp [lookupFst, List.find?, h]

theorem eraseFst_cons (x : α × β) (xs : List (α × β)) (a : α) :
    eraseFst (x :: xs) a =
      if x.1 == a then eraseFst xs a else x :: eraseFst xs a := by
  by_cases h : (x.1 == a) = true
  · have hb : (x.1 != a) = false := by simp [bne, h]
    simp [eraseFst, List.filter, hb, h]
  · rw [Bool.not_eq_true] at h
    have hb : (x.1 != a) = true := by simp [bne, h]
    simp [eraseFst, List.filter, hb, h]

theorem lookupFst_eq_none_iff {l : List (α × β)} {a : α} :
    lookupFst l a = none ↔ ∀ b, (a, b) ∉ l := by
  induction l with
  | nil => simp [lookupFst_nil]
  | cons x xs ih =>
    rw [lookupFst_cons]
    by_cases h : (x.1 == a) = true
    · have hx : x.1 = a := by simpa using h
      simp only [h, if_pos]
      constructor
      · intro hc; cases hc
      · intro hc
        exact absurd (List.mem_cons_self x xs)
          (by simpa [← hx] using hc x.2)
    · have hx : x.1 ≠ a := by simpa using h
      simp only [h, if_neg, Bool.false_eq_true, not_false_iff]
      rw [ih]
      constructor
      · intro hall b hb
        rcases List.mem_cons.mp hb with he | hm
        · exact hx (by rw [← he])
        · exact hall b hm
      · intro hall b hb
        exact hall b (List.mem_cons_of_mem x hb)

theorem mem_of_lookupFst_eq_some {l : List (α × β)} {a : α} {b : β}
    (h : lookupFst l a = some b) : (a, b) ∈ l := by
  induction l with
  | nil => cases h
  | cons x xs ih =>
    rw [lookupFst_cons] at h
    by_cases hx : (x.1 == a) = true
    · rw [if_pos hx] at h
      have h1 : x.1 = a := by simpa using hx
      have h2 : x.2 = b := Option.some.inj h
      have hxab : (a, b) = x := by cases x; simp_all
      rw [hxab]
      exact List.mem_cons_self x xs
    · rw [if_neg hx] at h
      exact List.mem_cons_of_mem x (ih h)

theorem lookupFst_eq_some_of_mem {l : List (α × β)} {a : α} {b : β}
    (hnd : (l.map Prod.fst).Nodup) (h : (a, b) ∈ l) : lookupFst l a = some b := by
  induction l with
  | nil => cases h
  | cons x xs ih =>
    rw [lookupFst_cons]
    rcases List.mem_cons.mp h with h | h
    · subst h; simp
    · have hx1 : x.1 ≠ a := by
        intro he
        exact (List.nodup_cons.mp hnd).1
          (List.mem_map.mpr ⟨(a, b), h, by simp [he]⟩)
      rw [if_neg (by simpa using hx1)]
      exact ih (List.nodup_cons.mp hnd).2 h

theorem lookupFst_append_of_none {l₁ l₂ : List (α × β)} {a : α}
    (h : lookupFst l₁ a = none) : lookupFst (l₁ ++ l₂) a = lookupFst l₂ a := by
  induction l₁ with
  | nil => simp
  | cons x xs ih =>
    rw [lookupFst_cons] at h
    by_cases hx : (x.1 == a) = true
    · rw [if_pos hx] at h; cases h
    · rw [if_neg hx] at h
      rw [List.cons_append, lookupFst_cons, if_neg hx]
      exact ih h

theorem mem_eraseFst_iff {l : List (α × β)} {a : α} {x : α × β} :
    x ∈ eraseFst l a ↔ x ∈ l ∧ x.1 ≠ a := by
  simp [eraseFst, List.mem_filter, bne_iff_ne]

theorem eraseFst_sublist (l : List (α × β)) (a : α) :
    List.Sublist (eraseFst l a) l :=
  List.filter_sublist l

theorem map_fst_eraseFst (l : List (α × β)) (a : α) :
    (eraseFst l a).map Prod.fst = (l.map Prod.fst).filter (fun x => x != a) := by
  induction l with
  | nil => rfl
  | cons x xs ih =>
    rw [eraseFst_cons]
    by_cases hx : (x.1 == a) = true
    · have hb : (x.1 != a) = false := by simp [bne, hx]
      simp [hx, ih, List.filter, hb]
    · have hb : (x.1 != a) = true := by simp [bne, hx]
      simp [hx, ih, List.filter, hb]

theorem lookupFst_eraseFst_self (l : List (α × β)) (a : α) :
    lookupFst (eraseFst l a) a = none := by
  rw [lookupFst_eq_none_iff]
  intro b hb
  exact (mem_eraseFst_iff.mp hb).2 rfl

theorem lookupFst_eraseFst_ne {l : List (α × β)} {a a' : α} (h : a' ≠ a) :
    lookupFst (eraseFst l a) a' = lookupFst l a' := by
  induction l with
  | nil => rfl
  | cons x xs ih =>
    rw [eraseFst_cons, lookupFst_cons]
    by_cases hxa : (x.1 == a) = true
    · have hx1 : x.1 = a := by simpa using hxa
      have : (x.1 == a') = false := by
        simpa using fun he => h (he ▸ hx1.symm).symm
      rw [if_pos hxa, if_neg (by simp [this])]
      exact ih
    · rw [if_neg hxa, lookupFst_cons]
      by_cases hx : (x.1 == a') = true
      · rw [if_pos hx, if_pos hx]
      · rw [if_neg hx, if_neg hx]
        exact ih

theorem eraseFst_eq_self_of_not_mem {l : List (α × β)} {a : α}
    (h : ∀ b, (a, b) ∉ l) : eraseFst l a = l := by
  refine List.filter_eq_self.mpr ?_
  intro x hx
  rw [bne_iff_ne]
  intro he
  exact h x.2 (by simpa [← he] using hx)

theorem length_eraseFst_add_one {l : List (α × β)} {a : α} {b : β}
    (hnd : (l.map Prod.fst).Nodup) (h : (a, b) ∈ l) :
    (eraseFst l a).length + 1 = l.length := by
  induction l with
  | nil => cases h
  | cons x xs ih =>
    rw [eraseFst_cons]
    rcases List.mem_cons.mp h with h | h
    · subst h
      have hall : ∀ y, (a, y) ∉ xs := by
        intro y hy
        exact (List.nodup_cons.mp hnd).1
          (List.mem_map.mpr ⟨(a, y), hy, rfl⟩)
      rw [if_pos (by simp), eraseFst_eq_self_of_not_mem hall]
      simp
    · have hx1 : (x.1 == a) = false := by
        simp only [beq_eq_false_iff_ne, ne_eq]
        intro he
        exact (List.nodup_cons.mp hnd).1
          (List.mem_map.mpr ⟨(a, b), h, by simp [he]⟩)
      rw [if_neg (by simp [hx1])]
      have := ih (List.nodup_cons.mp hnd).2 h
      simpa using this

theorem eraseFst_append (l₁ l₂ : List (α × β)) (a : α) :
    eraseFst (l₁ ++ l₂) a = eraseFst l₁ a ++ eraseFst l₂ a := by
  simp [eraseFst, List.filter_append]

theorem perm_cons_eraseFst {l : List (α × β)} {a : α} {b : β}
    (hnd : (l.map Prod.fst).Nodup) (h : (a, b) ∈ l) :
    l.Perm ((a, b) :: eraseFst l a) := by
  induction l with
  | nil => cases h
  | cons x xs ih =>
    rw [eraseFst_cons]
    rcases List.mem_cons.mp h with h | h
    · subst h
      have hall : ∀ y, (a, y) ∉ xs := by
        intro y hy
        exact (List.nodup_cons.mp hnd).1
          (List.mem_map.mpr ⟨(a, y), hy, rfl⟩)
      rw [if_pos (by simp), eraseFst_eq_self_of_not_mem hall]
    · have hx1 : (x.1 == a) = false := by
        simp only [beq_eq_false_iff_ne, ne_eq]
        intro he
        exact (List.nodup_cons.mp hnd).1
          (List.mem_map.mpr ⟨(a, b), h, by simp [he]⟩)
      rw [if_neg (by simp [hx1])]
      have hperm := ih (List.nodup_cons.mp hnd).2 h
      exact (hperm.cons x).trans (List.Perm.swap _ _ _)

theorem fst_inj_of_nodup {l : List (α × β)} {a : α} {b₁ b₂ : β}
    (hnd : (l.map Prod.fst).Nodup) (h₁ : (a, b₁) ∈ l) (h₂ : (a, b₂) ∈ l) :
    b₁ = b₂ := by
  have e₁ := lookupFst_eq_some_of_mem hnd h₁
  have e₂ := lookupFst_eq_some_of_mem hnd h₂
  rw [e₁] at e₂
  exact Option.some.inj e₂

theorem nodup_map_fst_eraseFst {l : List (α × β)} {a : α}
    (hnd : (l.map Prod.fst).Nodup) : ((eraseFst l a).map Prod.fst).Nodup := by
  rw [map_fst_eraseFst]
  exact hnd.filter _

theorem not_mem_map_fst_eraseFst (l : List (α × β)) (a : α) :
    a ∉ (eraseFst l a).map Prod.fst := by
  intro hmem
  obtain ⟨x, hx, hx1⟩ := List.mem_map.mp hmem
  exact (mem_eraseFst_iff.mp hx).2 hx1

end AssocLemmas

/-! ### The cache representation invariant -/

/-- Well-formedness of a cache state: node ids on the recency list are
distinct (list nodes have distinct identities), keys on the recency list are
distinct, index keys are distinct (`unordered_map` can never duplicate a
key), the index and the list point at each other consistently, every id in
use is below the fresh-id counter, and index and list have the same number
of entries. -/
structure Wf (c : LRUCache) : Prop where
  nodupIds : ((c.priorityQ.map Prod.fst).Nodup)
  nodupKeys : (qKeys c.priorityQ).Nodup
  nodupM : ((c.keyToNode.map Prod.fst).Nodup)
  map_to_q : ∀ k id, (k, id) ∈ c.keyToNode → ∃ nd, (id, nd) ∈ c.priorityQ ∧ nd.key = k
  q_to_map : ∀ id nd, (id, nd) ∈ c.priorityQ → (nd.key, id) ∈ c.keyToNode
  ids_lt : ∀ p ∈ c.priorityQ, p.1 < c.nextId
  len_eq : c.keyToNode.length = c.priorityQ.length

theorem wf_mk (capacity : Int) : Wf (mkLRUCache capacity) := by
  constructor <;> simp [mkLRUCache, qKeys]

/-- Under `Wf`, a key is in the index exactly when it is on the list. -/
theorem wf_key_mem_iff {c : LRUCache} (hW : Wf c) (k : Int) :
    (∃ id, (k, id) ∈ c.keyToNode) ↔ k ∈ qKeys c.priorityQ := by
  constructor
  · rintro ⟨id, hid⟩
    obtain ⟨nd, hnd, hk⟩ := hW.map_to_q k id hid
    exact List.mem_map.mpr ⟨(id, nd), hnd, hk⟩
  · intro hk
    obtain ⟨p, hp, hpk⟩ := List.mem_map.mp hk
    exact ⟨p.1, by simpa [hpk] using hW.q_to_map p.1 p.2 hp⟩

theorem wf_lookup_none_iff {c : LRUCache} (hW : Wf c) (k : Int) :
    lookupFst c.keyToNode k = none ↔ k ∉ qKeys c.priorityQ := by
  rw [lookupFst_eq_none_iff]
  constructor
  · intro h hk
    obtain ⟨id, hid⟩ := (wf_key_mem_iff hW k).mpr hk
    exact h id hid
  · intro h id hid
    exact h ((wf_key_mem_iff hW k).mp ⟨id, hid⟩)

/-- Under `Wf`, a successful index lookup dereferences to the node carrying
that key. -/
theorem wf_lookup_deref {c : LRUCache} (hW : Wf c) {k : Int} {id : Nat}
    (h : lookupFst c.keyToNode k = some id) :
    ∃ nd, lookupFst c.priorityQ id = some nd ∧ nd.key = k := by
  obtain ⟨nd, hnd, hk⟩ := hW.map_to_q k id (mem_of_lookupFst_eq_some h)
  exact ⟨nd, lookupFst_eq_some_of_mem hW.nodupIds hnd, hk⟩

/-! ### Unfolding equations for `get` and `put` -/

/-- A miss: `get` returns the sentinel `-1` and the state is untouched. -/
theorem get_miss_eq {c : LRUCache} {k : Int}
    (h : lookupFst c.keyToNode k = none) : c.get k = some (-1, c) := by
  simp [LRUCache.get, h]

/-- A hit: `get` erases the node and re-appends it at the back with a fresh
id, returning the stored value. -/
theorem get_hit_eq {c : LRUCache} {k : Int} {id : Nat} {nd : Node}
    (hm : lookupFst c.keyToNode k = some id)
    (hq : lookupFst c.priorityQ id = some nd) :
    c.get k = some (nd.val,
      { c with
        priorityQ := eraseFst c.priorityQ id ++ [(c.nextId, ⟨k, nd.val⟩)]
        keyToNode := eraseFst c.keyToNode k ++ [(k, c.nextId)]
        nextId := c.nextId + 1 }) := by
  simp [LRUCache.get, hm, hq, mapInsert, lookupFst_eraseFst_self]

/-- `put` on an existing key: erase the old node and index entry, append a
fresh node with the new value.  The eviction branch is skipped. -/
theorem put_hit_eq {c : LRUCache} {k v : Int} {id : Nat} {nd : Node}
    (hm : lookupFst c.keyToNode k = some id)
    (hq : lookupFst c.priorityQ id = some nd) :
    c.put k v = some
      { c with
        priorityQ := eraseFst c.priorityQ id ++ [(c.nextId, ⟨k, v⟩)]
        keyToNode := eraseFst c.keyToNode k ++ [(k, c.nextId)]
        nextId := c.nextId + 1 } := by
  simp [LRUCache.put, hm, hq, mapInsert, lookupFst_eraseFst_self]

/-- `put` of a new key with room to spare: plain append, no eviction. -/
theorem put_new_room_eq {c : LRUCache} {k v : Int}
    (hm : lookupFst c.keyToNode k = none)
    (hcap : c.capacity ≠ (c.keyToNode.length : Int)) :
    c.put k v = some
      { c with
        priorityQ := c.priorityQ ++ [(c.nextId, ⟨k, v⟩)]
        keyToNode := c.keyToNode ++ [(k, c.nextId)]
        nextId := c.nextId + 1 } := by
  simp [LRUCache.put, hm, hcap, mapInsert]

/-- `put` of a new key at capacity: the front (LRU) node is evicted together
with its index entry, then the new node is appended. -/
theorem put_new_full_eq {c : LRUCache} {k v : Int} {front : Nat × Node}
    {restQ : List (Nat × Node)} {j : Nat}
    (hm : lookupFst c.keyToNode k = none)
    (hcap : c.capacity = (c.keyToNode.length : Int))
    (hqe : c.priorityQ = front :: restQ)
    (hfe : lookupFst c.keyToNode front.2.key = some j) :
    c.put k v = some
      { c with
        priorityQ := restQ ++ [(c.nextId, ⟨k, v⟩)]
        keyToNode := eraseFst c.keyToNode front.2.key ++ [(k, c.nextId)]
        nextId := c.nextId + 1 } := by
  have hkf : k ≠ front.2.key := by
    intro he
    rw [he, hfe] at hm
    cases hm
  have hm2 : lookupFst (eraseFst c.keyToNode front.2.key) k = none := by
    rw [lookupFst_eraseFst_ne hkf, hm]
  simp [LRUCache.put, hm, hcap, hqe, hfe, mapInsert, hm2]

/-- `put` of a new key at capacity with an empty recency list: the C++ reads
`priorityQ.front()` of an empty `list`, which is undefined behaviour. -/
theorem put_new_full_nil_eq {c : LRUCache} {k v : Int}
    (hm : lookupFst c.keyToNode k = none)
    (hcap : c.capacity = (c.keyToNode.length : Int))
    (hqe : c.priorityQ = []) :
    c.put k v = none := by
  simp [LRUCache.put, hm, hcap, hqe]

/-! ### Preservation of the invariant -/

/-- Generic step shape: every mutating path of `get`/`put` first shrinks the
two structures coherently and then appends one fresh node for key `k`.
This lemma re-establishes `Wf` for any such step. -/
theorem wf_extend {c : LRUCache} (hW : Wf c) {q2 : List (Nat × Node)}
    {m2 : List (Int × Nat)} (k v : Int)
    (hq2 : List.Sublist q2 c.priorityQ)
    (hm2 : List.Sublist m2 c.keyToNode)
    (hknot : k ∉ qKeys q2)
    (hmk : ∀ id, (k, id) ∉ m2)
    (hcorr1 : ∀ k' id, (k', id) ∈ m2 → ∃ nd, (id, nd) ∈ q2 ∧ nd.key = k')
    (hcorr2 : ∀ id nd, (id, nd) ∈ q2 → (nd.key, id) ∈ m2)
    (hlen : m2.length = q2.length) :
    Wf { c with
         priorityQ := q2 ++ [(c.nextId, ⟨k, v⟩)]
         keyToNode := m2 ++ [(k, c.nextId)]
         nextId := c.nextId + 1 } := by
  have hidsub : List.Sublist (q2.map Prod.fst) (c.priorityQ.map Prod.fst) :=
    hq2.map Prod.fst
  have hksub : List.Sublist (qKeys q2) (qKeys c.priorityQ) := by
    unfold qKeys
    exact hq2.map (fun p => p.2.key)
  have hmsub : List.Sublist (m2.map Prod.fst) (c.keyToNode.map Prod.fst) :=
    hm2.map Prod.fst
  have hnid : c.nextId ∉ q2.map Prod.fst := by
    intro hmem
    obtain ⟨p, hp, hp1⟩ := List.mem_map.mp hmem
    exact absurd (hW.ids_lt p (hq2.mem hp)) (by omega)
  constructor
  · rw [List.map_append]
    rw [List.nodup_append]
    refine ⟨hW.nodupIds.sublist hidsub, by simp, ?_⟩
    intro x hx
    simp only [List.map_cons, List.map_nil, List.mem_singleton]
    intro he
    exact hnid (he ▸ hx)
  · show (qKeys (q2 ++ [(c.nextId, ⟨k, v⟩)])).Nodup
    rw [qKeys, List.map_append]
    rw [List.nodup_append]
    refine ⟨hW.nodupKeys.sublist hksub, by simp, ?_⟩
    intro x hx
    simp only [List.map_cons, List.map_nil, List.mem_singleton]
    intro he
    exact hknot (he ▸ hx)
  · rw [List.map_append]
    rw [List.nodup_append]
    refine ⟨hW.nodupM.sublist hmsub, by simp, ?_⟩
    intro x hx
    simp only [List.map_cons, List.map_nil, List.mem_singleton]
    intro he
    obtain ⟨p, hp, hp1⟩ := List.mem_map.mp hx
    exact hmk p.2 (by cases p; simp_all)
  · intro k' id' hmem
    rcases List.mem_append.mp hmem with h | h
    · obtain ⟨nd, hnd, hk⟩ := hcorr1 k' id' h
      exact ⟨nd, List.mem_append_left _ hnd, hk⟩
    · simp only [List.mem_singleton, Prod.mk.injEq] at h
      obtain ⟨rfl, rfl⟩ := h
      exact ⟨⟨k', v⟩, List.mem_append_right _ (by simp), rfl⟩
  · intro id' nd' hmem
    rcases List.mem_append.mp hmem with h | h
    · exact List.mem_append_left _ (hcorr2 id' nd' h)
    · simp only [List.mem_singleton, Prod.mk.injEq] at h
      obtain ⟨rfl, rfl⟩ := h
      exact List.mem_append_right _ (by simp)
  · intro p hp
    rcases List.mem_append.mp hp with h | h
    · exact Nat.lt_succ_of_lt (hW.ids_lt p (hq2.mem h))
    · simp only [List.mem_singleton] at h
      simp [h]
  · simp [hlen]

/-- The state produced by a hit (`get` on a present key, or `put` on an
existing key) is well formed. -/
theorem wf_hit_step {c : LRUCache} (hW : Wf c) {k : Int} {id : Nat} {nd : Node}
    (hm : lookupFst c.keyToNode k = some id)
    (hq : lookupFst c.priorityQ id = some nd) (v : Int) :
    Wf { c with
         priorityQ := eraseFst c.priorityQ id ++ [(c.nextId, ⟨k, v⟩)]
         keyToNode := eraseFst c.keyToNode k ++ [(k, c.nextId)]
         nextId := c.nextId + 1 } := by
  have hmmem : (k, id) ∈ c.keyToNode := mem_of_lookupFst_eq_some hm
  have hqmem : (id, nd) ∈ c.priorityQ := mem_of_lookupFst_eq_some hq
  have hndk : nd.key = k := by
    obtain ⟨nd0, h0, hk0⟩ := wf_lookup_deref hW hm
    rw [hq] at h0
    have he := Option.some.inj h0
    subst he
    exact hk0
  refine wf_extend hW k v (eraseFst_sublist _ _) (eraseFst_sublist _ _) ?_ ?_ ?_ ?_ ?_
  · intro hmem
    obtain ⟨p, hp, hpk⟩ := List.mem_map.mp hmem
    obtain ⟨hpq, hpid⟩ := mem_eraseFst_iff.mp hp
    have : (k, p.1) ∈ c.keyToNode := by
      have := hW.q_to_map p.1 p.2 hpq
      rwa [hpk] at this
    exact hpid (fst_inj_of_nodup hW.nodupM this hmmem)
  · intro id' hmem
    exact (mem_eraseFst_iff.mp hmem).2 rfl
  · intro k' id' hmem
    obtain ⟨hin, hne⟩ := mem_eraseFst_iff.mp hmem
    obtain ⟨nd', hnd', hk'⟩ := hW.map_to_q k' id' hin
    refine ⟨nd', mem_eraseFst_iff.mpr ⟨hnd', ?_⟩, hk'⟩
    intro he
    have : nd' = nd := fst_inj_of_nodup hW.nodupIds (he ▸ hnd') hqmem
    exact hne (by rw [← hk', this, hndk])
  · intro id' nd' hmem
    obtain ⟨hin, hne⟩ := mem_eraseFst_iff.mp hmem
    refine mem_eraseFst_iff.mpr ⟨hW.q_to_map id' nd' hin, ?_⟩
    intro he
    have he' : nd'.key = k := he
    have hmem2 : (k, id') ∈ c.keyToNode := he' ▸ hW.q_to_map id' nd' hin
    exact hne (fst_inj_of_nodup hW.nodupM hmem2 hmmem)
  · have h1 := length_eraseFst_add_one hW.nodupM hmmem
    have h2 := length_eraseFst_add_one hW.nodupIds hqmem
    have h3 := hW.len_eq
    omega

/-- The state produced by a `put` of a new key below capacity is well
formed. -/
theorem wf_room_step {c : LRUCache} (hW : Wf c) {k : Int}
    (hm : lookupFst c.keyToNode k = none) (v : Int) :
    Wf { c with
         priorityQ := c.priorityQ ++ [(c.nextId, ⟨k, v⟩)]
         keyToNode := c.keyToNode ++ [(k, c.nextId)]
         nextId := c.nextId + 1 } := by
  refine wf_extend hW k v (List.Sublist.refl _) (List.Sublist.refl _)
    ((wf_lookup_none_iff hW k).mp hm) ?_ hW.map_to_q hW.q_to_map hW.len_eq
  intro id hmem
  exact lookupFst_eq_none_iff.mp hm id hmem

/-- The state produced by a `put` of a new key at capacity (evicting the
front node) is well formed. -/
theorem wf_full_step {c : LRUCache} (hW : Wf c) {k : Int} {front : Nat × Node}
    {restQ : List (Nat × Node)} {j : Nat}
    (hm : lookupFst c.keyToNode k = none)
    (hqe : c.priorityQ = front :: restQ)
    (hfe : lookupFst c.keyToNode front.2.key = some j) (v : Int) :
    Wf { c with
         priorityQ := restQ ++ [(c.nextId, ⟨k, v⟩)]
         keyToNode := eraseFst c.keyToNode front.2.key ++ [(k, c.nextId)]
         nextId := c.nextId + 1 } := by
  have hfmem : (front.2.key, j) ∈ c.keyToNode := mem_of_lookupFst_eq_some hfe
  have hrq : List.Sublist restQ c.priorityQ := by
    rw [hqe]
    exact List.sublist_cons_self front restQ
  have hfkey : front.2.key ∉ qKeys restQ := by
    have := hW.nodupKeys
    rw [hqe] at this
    exact (List.nodup_cons.mp (by simpa [qKeys] using this)).1
  refine wf_extend hW k v hrq (eraseFst_sublist _ _) ?_ ?_ ?_ ?_ ?_
  · intro hmem
    have hsub : List.Sublist (qKeys restQ) (qKeys c.priorityQ) := by
      unfold qKeys
      exact hrq.map _
    exact (wf_lookup_none_iff hW k).mp hm (hsub.mem hmem)
  · intro id hmem
    exact lookupFst_eq_none_iff.mp hm id (mem_eraseFst_iff.mp hmem).1
  · intro k' id' hmem
    obtain ⟨hin, hne⟩ := mem_eraseFst_iff.mp hmem
    obtain ⟨nd', hnd', hk'⟩ := hW.map_to_q k' id' hin
    rw [hqe] at hnd'
    rcases List.mem_cons.mp hnd' with he | hmem'
    · exfalso
      apply hne
      rw [← hk']
      have : nd' = front.2 := congrArg Prod.snd he
      rw [this]
    · exact ⟨nd', hmem', hk'⟩
  · intro id' nd' hmem
    have hin : (id', nd') ∈ c.priorityQ := hrq.mem hmem
    refine mem_eraseFst_iff.mpr ⟨hW.q_to_map id' nd' hin, ?_⟩
    intro he
    apply hfkey
    rw [show front.2.key = nd'.key from he.symm]
    exact List.mem_map.mpr ⟨(id', nd'), hmem, rfl⟩
  · have h1 := length_eraseFst_add_one hW.nodupM hfmem
    have h2 := hW.len_eq
    rw [hqe] at h2
    simp only [List.length_cons] at h2
    omega

/-- Inversion for `put` on a well-formed state: every successful call takes
exactly one of the three branches (existing key, new key with room, new key
with eviction), with the result state determined by the branch. -/
theorem put_inv {c : LRUCache} {k v : Int} {c' : LRUCache} (hW : Wf c)
    (h : c.put k v = some c') :
    (∃ id nd, lookupFst c.keyToNode k = some id ∧
       lookupFst c.priorityQ id = some nd ∧
       c' = { c with
              priorityQ := eraseFst c.priorityQ id ++ [(c.nextId, ⟨k, v⟩)]
              keyToNode := eraseFst c.keyToNode k ++ [(k, c.nextId)]
              nextId := c.nextId + 1 }) ∨
    (lookupFst c.keyToNode k = none ∧
       c.capacity ≠ (c.keyToNode.length : Int) ∧
       c' = { c with
              priorityQ := c.priorityQ ++ [(c.nextId, ⟨k, v⟩)]
              keyToNode := c.keyToNode ++ [(k, c.nextId)]
              nextId := c.nextId + 1 }) ∨
    (∃ front restQ j, lookupFst c.keyToNode k = none ∧
       c.capacity = (c.keyToNode.length : Int) ∧
       c.priorityQ = front :: restQ ∧
       lookupFst c.keyToNode front.2.key = some j ∧
       c' = { c with
              priorityQ := restQ ++ [(c.nextId, ⟨k, v⟩)]
              keyToNode := eraseFst c.keyToNode front.2.key ++ [(k, c.nextId)]
              nextId := c.nextId + 1 }) := by
  cases hlk : lookupFst c.keyToNode k with
  | some id =>
    obtain ⟨nd, hq, _⟩ := wf_lookup_deref hW hlk
    left
    refine ⟨id, nd, rfl, hq, ?_⟩
    rw [put_hit_eq hlk hq] at h
    exact (Option.some.inj h).symm
  | none =>
    by_cases hcap : c.capacity = (c.keyToNode.length : Int)
    · cases hqe : c.priorityQ with
      | nil =>
        rw [put_new_full_nil_eq hlk hcap hqe] at h
        cases h
      | cons front restQ =>
        have hfm : (front.2.key, front.1) ∈ c.keyToNode := by
          have : (front.1, front.2) ∈ c.priorityQ := by
            rw [hqe]; simp
          exact hW.q_to_map front.1 front.2 this
        have hfe : lookupFst c.keyToNode front.2.key = some front.1 :=
          lookupFst_eq_some_of_mem hW.nodupM hfm
        right; right
        refine ⟨front, restQ, front.1, rfl, hcap, rfl, hfe, ?_⟩
        rw [put_new_full_eq hlk hcap hqe hfe] at h
        exact (Option.some.inj h).symm
    · right; left
      refine ⟨rfl, hcap, ?_⟩
      rw [put_new_room_eq hlk hcap] at h
      exact (Option.some.inj h).symm

/-- `get` preserves well-formedness. -/
theorem wf_get {c : LRUCache} {k v : Int} {c' : LRUCache} (hW : Wf c)
    (h : c.get k = some (v, c')) : Wf c' := by
  cases hlk : lookupFst c.keyToNode k with
  | none =>
    rw [get_miss_eq hlk] at h
    rw [← (Prod.mk.inj (Option.some.inj h)).2]
    exact hW
  | some id =>
    obtain ⟨nd, hq, _⟩ := wf_lookup_deref hW hlk
    rw [get_hit_eq hlk hq] at h
    rw [← (Prod.mk.inj (Option.some.inj h)).2]
    exact wf_hit_step hW hlk hq nd.val

/-- `put` preserves well-formedness. -/
theorem wf_put {c : LRUCache} {k v : Int} {c' : LRUCache} (hW : Wf c)
    (h : c.put k v = some c') : Wf c' := by
  rcases put_inv hW h with ⟨id, nd, hlk, hq, rfl⟩ |
    ⟨hlk, hcap, rfl⟩ | ⟨front, restQ, j, hlk, hcap, hqe, hfe, rfl⟩
  · exact wf_hit_step hW hlk hq v
  · exact wf_room_step hW hlk v
  · exact wf_full_step hW hlk hqe hfe v

/-- On a well-formed state, `get` never runs into undefined behaviour. -/
theorem get_isSome {c : LRUCache} (hW : Wf c) (k : Int) :
    ∃ v c', c.get k = some (v, c') := by
  cases hlk : lookupFst c.keyToNode k with
  | none => exact ⟨-1, c, get_miss_eq hlk⟩
  | some id =>
    obtain ⟨nd, hq, _⟩ := wf_lookup_deref hW hlk
    exact ⟨nd.val, _, get_hit_eq hlk hq⟩

/-- On a well-formed state with positive capacity, `put` never runs into
undefined behaviour. -/
theorem put_isSome {c : LRUCache} (hW : Wf c) (hcap : 1 ≤ c.capacity)
    (k v : Int) : ∃ c', c.put k v = some c' := by
  cases hlk : lookupFst c.keyToNode k with
  | some id =>
    obtain ⟨nd, hq, _⟩ := wf_lookup_deref hW hlk
    exact ⟨_, put_hit_eq hlk hq⟩
  | none =>
    by_cases hc : c.capacity = (c.keyToNode.length : Int)
    · cases hqe : c.priorityQ with
      | nil =>
        exfalso
        have := hW.len_eq
        rw [hqe] at this
        simp only [List.length_nil] at this
        rw [this] at hc
        omega
      | cons front restQ =>
        have hfm : (front.2.key, front.1) ∈ c.keyToNode := by
          have : (front.1, front.2) ∈ c.priorityQ := by
            rw [hqe]; simp
          exact hW.q_to_map front.1 front.2 this
        exact ⟨_, put_new_full_eq hlk hc hqe
          (lookupFst_eq_some_of_mem hW.nodupM hfm)⟩
    · exact ⟨_, put_new_room_eq hlk hc⟩

/-- The index never shrinks below nor grows past the capacity in one `put`:
case analysis on the three branches. -/
theorem put_length {c : LRUCache} {k v : Int} {c' : LRUCache} (hW : Wf c)
    (h : c.put k v = some c') :
    (c'.keyToNode.length = c.keyToNode.length ∧
       lookupFst c.keyToNode k ≠ none) ∨
    (c'.keyToNode.length = c.keyToNode.length + 1 ∧
       lookupFst c.keyToNode k = none ∧
       c.capacity ≠ (c.keyToNode.length : Int)) ∨
    (c'.keyToNode.length = c.keyToNode.length ∧
       lookupFst c.keyToNode k = none ∧
       c.capacity = (c.keyToNode.length : Int)) := by
  rcases put_inv hW h with ⟨id, nd, hlk, hq, rfl⟩ |
    ⟨hlk, hcap, rfl⟩ | ⟨front, restQ, j, hlk, hcap, hqe, hfe, rfl⟩
  · left
    have h1 := length_eraseFst_add_one hW.nodupM (mem_of_lookupFst_eq_some hlk)
    constructor
    · simp only [List.length_append, List.length_cons, List.length_nil]
      omega
    · rw [hlk]; intro hc; cases hc
  · right; left
    refine ⟨by simp, hlk, hcap⟩
  · right; right
    have h1 := length_eraseFst_add_one hW.nodupM (mem_of_lookupFst_eq_some hfe)
    refine ⟨?_, hlk, hcap⟩
    simp only [List.length_append, List.length_cons, List.length_nil]
    omega

/-- A `get` never changes the number of index entries. -/
theorem get_length {c : LRUCache} {k v : Int} {c' : LRUCache} (hW : Wf c)
    (h : c.get k = some (v, c')) :
    c'.keyToNode.length = c.keyToNode.length := by
  cases hlk : lookupFst c.keyToNode k with
  | none =>
    rw [get_miss_eq hlk] at h
    rw [← (Prod.mk.inj (Option.some.inj h)).2]
  | some id =>
    obtain ⟨nd, hq, _⟩ := wf_lookup_deref hW hlk
    rw [get_hit_eq hlk hq] at h
    rw [← (Prod.mk.inj (Option.some.inj h)).2]
    have h1 := length_eraseFst_add_one hW.nodupM (mem_of_lookupFst_eq_some hlk)
    simp only [List.length_append, List.length_cons, List.length_nil]
    omega

/-- A step never changes the stored capacity. -/
theorem step_capacity {c c' : LRUCache} (hW : Wf c) {op : Op}
    (h : c.step op = some c') : c'.capacity = c.capacity := by
  cases op with
  | get k =>
    simp only [LRUCache.step, Option.map_eq_some'] at h
    obtain ⟨⟨v, c''⟩, hg, rfl⟩ := h
    cases hlk : lookupFst c.keyToNode k with
    | none =>
      rw [get_miss_eq hlk] at hg
      rw [← (Prod.mk.inj (Option.some.inj hg)).2]
    | some id =>
      obtain ⟨nd, hq, _⟩ := wf_lookup_deref hW hlk
      rw [get_hit_eq hlk hq] at hg
      rw [← (Prod.mk.inj (Option.some.inj hg)).2]
  | put k v =>
    rcases put_inv hW h with ⟨id, nd, hlk, hq, rfl⟩ |
      ⟨hlk, hcap, rfl⟩ | ⟨front, restQ, j, hlk, hcap, hqe, hfe, rfl⟩ <;> rfl

/-- One public call on a well-formed state with positive capacity succeeds,
preserves well-formedness and the capacity, and keeps the index size within
the capacity. -/
theorem wf_step {c : LRUCache} (hW : Wf c) (hcap : 1 ≤ c.capacity) (op : Op) :
    ∃ c', c.step op = some c' ∧ Wf c' ∧ c'.capacity = c.capacity ∧
      ((c.keyToNode.length : Int) ≤ c.capacity →
        (c'.keyToNode.length : Int) ≤ c.capacity) := by
  cases op with
  | get k =>
    obtain ⟨v, c', hg⟩ := get_isSome hW k
    have hs : c.step (Op.get k) = some c' := by
      simp [LRUCache.step, hg]
    refine ⟨c', hs, wf_get hW hg, step_capacity hW hs, ?_⟩
    rw [get_length hW hg]
    exact id
  | put k v =>
    obtain ⟨c', hp⟩ := put_isSome hW hcap k v
    have hs : c.step (Op.put k v) = some c' := by
      simpa [LRUCache.step] using hp
    refine ⟨c', hs, wf_put hW hp, step_capacity hW hs, ?_⟩
    intro hsize
    rcases put_length hW hp with ⟨he, _⟩ | ⟨he, _, hne⟩ | ⟨he, _, _⟩
    · rw [he]; exact hsize
    · rw [he]; push_cast; push_cast at hsize hne; omega
    · rw [he]; exact hsize

/-- Any sequence of calls from a well-formed, within-capacity state with
positive capacity succeeds and ends in a well-formed, within-capacity
state of the same capacity. -/
theorem wf_run {c : LRUCache} (hW : Wf c) (hcap : 1 ≤ c.capacity)
    (hsize : (c.keyToNode.length : Int) ≤ c.capacity) (ops : List Op) :
    ∃ c', c.run ops = some c' ∧ Wf c' ∧ c'.capacity = c.capacity ∧
      (c'.keyToNode.length : Int) ≤ c.capacity := by
  induction ops generalizing c with
  | nil => exact ⟨c, rfl, hW, rfl, hsize⟩
  | cons op ops ih =>
    obtain ⟨c1, hs, hW1, hc1, hsz1⟩ := wf_step hW hcap op
    obtain ⟨c', hr, hW', hc', hsz'⟩ := ih hW1 (hc1 ▸ hcap) (hc1 ▸ hsz1 hsize)
    refine ⟨c', ?_, hW', by rw [hc', hc1], by rw [hc1] at hsz'; exact hsz'⟩
    simp only [LRUCache.run, hs]
    exact hr

theorem qKeys_append (a b : List (Nat × Node)) :
    qKeys (a ++ b) = qKeys a ++ qKeys b := by
  simp [qKeys]

/-- Every successful `put k v` ends with the fresh node `(k, v)` at the back
of the recency list and the fresh index entry at the end of the index, with
nothing equal to them earlier. -/
theorem put_shape {c : LRUCache} {k v : Int} {c' : LRUCache} (hW : Wf c)
    (h : c.put k v = some c') :
    ∃ q0 m0, c'.priorityQ = q0 ++ [(c.nextId, ⟨k, v⟩)] ∧
      c'.keyToNode = m0 ++ [(k, c.nextId)] ∧
      lookupFst m0 k = none ∧
      lookupFst q0 c.nextId = none ∧
      c'.nextId = c.nextId + 1 ∧ c'.capacity = c.capacity := by
  have hq0 : ∀ q0 : List (Nat × Node), List.Sublist q0 c.priorityQ →
      lookupFst q0 c.nextId = none := by
    intro q0 hsub
    rw [lookupFst_eq_none_iff]
    intro nd hmem
    exact absurd (hW.ids_lt _ (hsub.mem hmem)) (by omega)
  rcases put_inv hW h with ⟨id, nd, hlk, hq, rfl⟩ |
    ⟨hlk, hcap, rfl⟩ | ⟨front, restQ, j, hlk, hcap, hqe, hfe, rfl⟩
  · exact ⟨_, _, rfl, rfl, lookupFst_eraseFst_self _ _,
      hq0 _ (eraseFst_sublist _ _), rfl, rfl⟩
  · exact ⟨_, _, rfl, rfl, hlk, hq0 _ (List.Sublist.refl _), rfl, rfl⟩
  · have hkf : k ≠ front.2.key := by
      intro he
      rw [he, hfe] at hlk
      cases hlk
    refine ⟨_, _, rfl, rfl, ?_, hq0 _ (by rw [hqe]; exact List.sublist_cons_self _ _),
      rfl, rfl⟩
    rw [lookupFst_eraseFst_ne hkf]
    exact hlk

/-- After a successful `put k v`, looking the key up in the new state finds
the fresh node, which stores exactly `v`. -/
theorem put_lookup {c : LRUCache} {k v : Int} {c' : LRUCache} (hW : Wf c)
    (h : c.put k v = some c') :
    lookupFst c'.keyToNode k = some c.nextId ∧
    lookupFst c'.priorityQ c.nextId = some (⟨k, v⟩ : Node) ∧
    c'.priorityQ.getLast?.map (fun p => p.2.key) = some k := by
  obtain ⟨q0, m0, hq, hm, hm0, hq0, _, _⟩ := put_shape hW h
  refine ⟨?_, ?_, ?_⟩
  · rw [hm, lookupFst_append_of_none hm0, lookupFst_cons]
    simp
  · rw [hq, lookupFst_append_of_none hq0, lookupFst_cons]
    simp
  · rw [hq]
    simp [List.getLast?_concat]

/-- A Wf witness for a concrete singleton state, used to instantiate the
claims at concrete inputs. -/
theorem wf_single (cap k v : Int) :
    Wf { capacity := cap, priorityQ := [(0, ⟨k, v⟩)],
         keyToNode := [(k, 0)], nextId := 1 } := by
  constructor
  · simp
  · simp [qKeys]
  · simp
  · intro k' id' hmem
    simp only [List.mem_singleton, Prod.mk.injEq] at hmem
    obtain ⟨rfl, rfl⟩ := hmem
    exact ⟨⟨k', v⟩, by simp, rfl⟩
  · intro id' nd' hmem
    simp only [List.mem_singleton, Prod.mk.injEq] at hmem
    obtain ⟨rfl, rfl⟩ := hmem
    simp
  · intro p hp
    simp only [List.mem_singleton] at hp
    simp [hp]
  · rfl

/-! ### Claim theorems -/

/-- C2: for every cache constructed with positive capacity and every
sequence of `get`/`put` calls, the number of cached entries (index entries,
equivalently recency-list nodes) is at most the capacity after every call. -/
theorem C2_capacity_invariant {cap : Int} (hcap : 1 ≤ cap) (ops : List Op)
    {c' : LRUCache} (h : (mkLRUCache cap).run ops = some c') :
    (c'.keyToNode.length : Int) ≤ cap ∧ (c'.priorityQ.length : Int) ≤ cap := by
  obtain ⟨c'', hr, hW, _, hsz⟩ :=
    wf_run (wf_mk cap) hcap (by simp [mkLRUCache]; omega) ops
  rw [h] at hr
  obtain rfl := Option.some.inj hr
  exact ⟨hsz, by rw [← hW.len_eq]; exact hsz⟩

theorem C2_capacity_invariant_witness :
    ∃ c', (mkLRUCache 2).run [Op.put 1 10, Op.put 2 20, Op.put 3 30] = some c' ∧
      (c'.keyToNode.length : Int) ≤ 2 := by
  cases hr : (mkLRUCache 2).run [Op.put 1 10, Op.put 2 20, Op.put 3 30] with
  | none => exact absurd hr (by decide)
  | some c' => exact ⟨c', rfl, (C2_capacity_invariant (by decide) _ hr).1⟩

/-- C3: immediately after a successful `put k v` the index maps `k` to the
fresh node holding value `v`, that node sits at the most-recently-used end
of the recency list, and `get k` returns `v`. -/
theorem C3_value_correctness {c : LRUCache} (hW : Wf c) {k v : Int}
    {c' : LRUCache} (h : c.put k v = some c') :
    lookupFst c'.keyToNode k = some c.nextId ∧
    lookupFst c'.priorityQ c.nextId = some (⟨k, v⟩ : Node) ∧
    c'.priorityQ.getLast?.map (fun p => p.2.key) = some k ∧
    ∃ c'', c'.get k = some (v, c'') := by
  obtain ⟨h1, h2, h3⟩ := put_lookup hW h
  exact ⟨h1, h2, h3, ⟨_, get_hit_eq h1 h2⟩⟩

theorem C3_value_correctness_witness :
    ∃ c'', ({ capacity := 2, priorityQ := [(0, ⟨5, 42⟩)], keyToNode := [(5, 0)],
              nextId := 1 } : LRUCache).get 5 = some (42, c'') := by
  have h : (mkLRUCache 2).put 5 42 = some { capacity := 2,
                                             priorityQ := [(0, (⟨5, 42⟩ : Node))],
                                             keyToNode := [(5, 0)], nextId := 1 } := by
    decide
  exact (C3_value_correctness (wf_mk 2) h).2.2.2

/-- C4: `get` on a present key returns its cached value, moves the key to
the most-recently-used position, removes no key (the cached key multiset is
preserved), and leaves both entry counts unchanged. -/
theorem C4_get_hit {c : LRUCache} (hW : Wf c) {k : Int} {id : Nat} {nd : Node}
    (hm : lookupFst c.keyToNode k = some id)
    (hq : lookupFst c.priorityQ id = some nd) :
    ∃ c', c.get k = some (nd.val, c') ∧
      (qKeys c'.priorityQ).Perm (qKeys c.priorityQ) ∧
      c'.keyToNode.length = c.keyToNode.length ∧
      c'.priorityQ.length = c.priorityQ.length ∧
      c'.priorityQ.getLast?.map (fun p => p.2.key) = some k := by
  have hndk : nd.key = k := by
    obtain ⟨nd0, h0, hk0⟩ := wf_lookup_deref hW hm
    rw [hq] at h0
    have he := Option.some.inj h0
    subst he
    exact hk0
  refine ⟨_, get_hit_eq hm hq, ?_, ?_, ?_, ?_⟩
  · show (qKeys (eraseFst c.priorityQ id ++ [(c.nextId, ⟨k, nd.val⟩)])).Perm _
    rw [qKeys_append]
    have h1 : (qKeys (eraseFst c.priorityQ id) ++ qKeys [(c.nextId, (⟨k, nd.val⟩ : Node))]).Perm
        (k :: qKeys (eraseFst c.priorityQ id)) := by
      simpa [qKeys] using
        List.perm_append_singleton k (qKeys (eraseFst c.priorityQ id))
    refine h1.trans ?_
    have h2 := (perm_cons_eraseFst hW.nodupIds
      (mem_of_lookupFst_eq_some hq)).map (fun p => p.2.key)
    simp only [List.map_cons] at h2
    rw [hndk] at h2
    show (k :: qKeys (eraseFst c.priorityQ id)).Perm (qKeys c.priorityQ)
    unfold qKeys
    exact h2.symm
  · show (eraseFst c.keyToNode k ++ [(k, c.nextId)]).length = _
    have := length_eraseFst_add_one hW.nodupM (mem_of_lookupFst_eq_some hm)
    simp only [List.length_append, List.length_cons, List.length_nil]
    omega
  · show (eraseFst c.priorityQ id ++ [(c.nextId, (⟨k, nd.val⟩ : Node))]).length = _
    have := length_eraseFst_add_one hW.nodupIds (mem_of_lookupFst_eq_some hq)
    simp only [List.length_append, List.length_cons, List.length_nil]
    omega
  · simp [List.getLast?_concat]

theorem C4_get_hit_witness :
    ∃ c', ({ capacity := 2, priorityQ := [(0, ⟨1, 10⟩)], keyToNode := [(1, 0)],
             nextId := 1 } : LRUCache).get 1 = some ((⟨1, 10⟩ : Node).val, c') := by
  obtain ⟨c', hg, _⟩ := C4_get_hit (wf_single 2 1 10)
    (show lookupFst [((1 : Int), (0 : Nat))] 1 = some 0 by decide)
    (show lookupFst [((0 : Nat), (⟨1, 10⟩ : Node))] 0 = some ⟨1, 10⟩ by decide)
  exact ⟨c', hg⟩

/-- C5: `put k v2` on an already-present key succeeds, never changes either
entry count, removes no key (no eviction), stores `v2` as `k`'s value, and
makes `k` the most-recently-used entry. -/
theorem C5_update_semantics {c : LRUCache} (hW : Wf c) {k : Int} {id : Nat}
    (hm : lookupFst c.keyToNode k = some id) (v2 : Int) :
    ∃ c', c.put k v2 = some c' ∧
      c'.keyToNode.length = c.keyToNode.length ∧
      c'.priorityQ.length = c.priorityQ.length ∧
      (qKeys c'.priorityQ).Perm (qKeys c.priorityQ) ∧
      lookupFst c'.keyToNode k = some c.nextId ∧
      lookupFst c'.priorityQ c.nextId = some (⟨k, v2⟩ : Node) ∧
      c'.priorityQ.getLast?.map (fun p => p.2.key) = some k := by
  obtain ⟨nd, hq, hndk⟩ := wf_lookup_deref hW hm
  have hput := put_hit_eq (v := v2) hm hq
  obtain ⟨hl1, hl2, hl3⟩ := put_lookup hW hput
  refine ⟨_, hput, ?_, ?_, ?_, hl1, hl2, hl3⟩
  · show (eraseFst c.keyToNode k ++ [(k, c.nextId)]).length = _
    have := length_eraseFst_add_one hW.nodupM (mem_of_lookupFst_eq_some hm)
    simp only [List.length_append, List.length_cons, List.length_nil]
    omega
  · show (eraseFst c.priorityQ id ++ [(c.nextId, (⟨k, v2⟩ : Node))]).length = _
    have := length_eraseFst_add_one hW.nodupIds (mem_of_lookupFst_eq_some hq)
    simp only [List.length_append, List.length_cons, List.length_nil]
    omega
  · show (qKeys (eraseFst c.priorityQ id ++ [(c.nextId, ⟨k, v2⟩)])).Perm _
    rw [qKeys_append]
    have h1 : (qKeys (eraseFst c.priorityQ id) ++ qKeys [(c.nextId, (⟨k, v2⟩ : Node))]).Perm
        (k :: qKeys (eraseFst c.priorityQ id)) := by
      simpa [qKeys] using
        List.perm_append_singleton k (qKeys (eraseFst c.priorityQ id))
    refine h1.trans ?_
    have h2 := (perm_cons_eraseFst hW.nodupIds
      (mem_of_lookupFst_eq_some hq)).map (fun p => p.2.key)
    simp only [List.map_cons] at h2
    rw [hndk] at h2
    show (k :: qKeys (eraseFst c.priorityQ id)).Perm (qKeys c.priorityQ)
    unfold qKeys
    exact h2.symm

theorem C5_update_semantics_witness :
    ∃ c', ({ capacity := 2, priorityQ := [(0, ⟨1, 10⟩)], keyToNode := [(1, 0)],
             nextId := 1 } : LRUCache).put 1 99 = some c' ∧
      c'.keyToNode.length = 1 := by
  obtain ⟨c', hp, hlen, _⟩ := C5_update_semantics (wf_single 2 1 10)
    (show lookupFst [((1 : Int), (0 : Nat))] 1 = some 0 by decide) 99
  exact ⟨c', hp, hlen⟩

/-- C6: `get` on an absent key returns the explicit miss result `-1` (no
exception or undefined behaviour) and leaves the state completely
unchanged. -/
theorem C6_get_miss {c : LRUCache} {k : Int}
    (h : lookupFst c.keyToNode k = none) : c.get k = some (-1, c) :=
  get_miss_eq h

theorem C6_get_miss_witness :
    (mkLRUCache 3).get 9 = some (-1, mkLRUCache 3) :=
  C6_get_miss (by decide)

/-- C7: after any sequence of public operations from a freshly constructed
cache (positive capacity), the index and the recency list have the same
number of entries, and every index entry dereferences to a list node whose
key is the index key. -/
theorem C7_coupling_invariant {cap : Int} (hcap : 1 ≤ cap) (ops : List Op)
    {c' : LRUCache} (h : (mkLRUCache cap).run ops = some c') :
    c'.keyToNode.length = c'.priorityQ.length ∧
    ∀ k id, lookupFst c'.keyToNode k = some id →
      ∃ nd, lookupFst c'.priorityQ id = some nd ∧ nd.key = k := by
  obtain ⟨c'', hr, hW, _, _⟩ :=
    wf_run (wf_mk cap) hcap (by simp [mkLRUCache]; omega) ops
  rw [h] at hr
  obtain rfl := Option.some.inj hr
  exact ⟨hW.len_eq, fun k id hkid => wf_lookup_deref hW hkid⟩

theorem C7_coupling_invariant_witness :
    ∃ c', (mkLRUCache 2).run [Op.put 1 10, Op.put 2 20, Op.get 1, Op.put 3 30]
        = some c' ∧ c'.keyToNode.length = c'.priorityQ.length := by
  cases hr : (mkLRUCache 2).run [Op.put 1 10, Op.put 2 20, Op.get 1, Op.put 3 30] with
  | none => exact absurd hr (by decide)
  | some c' => exact ⟨c', rfl, (C7_coupling_invariant (by decide) _ hr).1⟩

/-- C8 counterexample: constructing with capacity `0` is *not* reported as
an error at construction time: the constructor returns an ordinary state on
which `get` even works normally; only the first `put` of a new key fails
(undefined behaviour: reading the front of an empty list). -/
theorem C8_counterexample :
    mkLRUCache 0 =
      { capacity := 0, priorityQ := [], keyToNode := [], nextId := 0 } ∧
    (mkLRUCache 0).get 7 = some (-1, mkLRUCache 0) ∧
    (mkLRUCache 0).put 1 1 = none := by
  refine ⟨rfl, by decide, by decide⟩

/-- C8 amended: the constructor performs no validation for any capacity
`≤ 0`; the cache is constructed as an ordinary state and `get` works, and
with capacity `0` the error surfaces only at the first `put` of a key
(deferred to first use, as undefined behaviour on the empty list). -/
theorem C8_no_construction_check (cap : Int) (hcap : cap ≤ 0) (k v : Int) :
    mkLRUCache cap =
      { capacity := cap, priorityQ := [], keyToNode := [], nextId := 0 } ∧
    (mkLRUCache cap).get k = some (-1, mkLRUCache cap) ∧
    (cap = 0 → (mkLRUCache cap).put k v = none) := by
  refine ⟨rfl, get_miss_eq rfl, fun h0 => put_new_full_nil_eq rfl ?_ rfl⟩
  simp [mkLRUCache, h0]

theorem C8_no_construction_check_witness :
    (0 : Int) ≤ 0 ∧ (mkLRUCache 0).put 3 4 = none :=
  ⟨by decide, (C8_no_construction_check 0 (by decide) 3 4).2.2 rfl⟩

/-- C9: the miss sentinel collides with legal values: after `put k (-1)`,
`get k` returns `-1` — while `get` on any absent key also returns `-1` —
so the two cases are indistinguishable from the returned value. -/
theorem C9_sentinel_collision {c : LRUCache} (hW : Wf c) {k : Int}
    {c' : LRUCache} (h : c.put k (-1) = some c') :
    (∃ c'', c'.get k = some (-1, c'')) ∧
    (∀ (d : LRUCache) (k' : Int), lookupFst d.keyToNode k' = none →
      (d.get k').map Prod.fst = some (-1)) := by
  obtain ⟨h1, h2, _⟩ := put_lookup hW h
  refine ⟨⟨_, get_hit_eq h1 h2⟩, fun d k' hd => by rw [get_miss_eq hd]; rfl⟩

theorem C9_sentinel_collision_witness :
    ∃ c'', ({ capacity := 2, priorityQ := [(0, ⟨5, -1⟩)], keyToNode := [(5, 0)],
              nextId := 1 } : LRUCache).get 5 = some (-1, c'') := by
  have h : (mkLRUCache 2).put 5 (-1) = some { capacity := 2,
                                               priorityQ := [(0, (⟨5, -1⟩ : Node))],
                                               keyToNode := [(5, 0)], nextId := 1 } := by
    decide
  exact (C9_sentinel_collision (wf_mk 2) h).1

/-- C10: on a well-formed state with positive capacity, whenever `put`
takes the eviction branch (new key, index at capacity) the recency list is
non-empty, so reading and popping its front is well-defined and the call
succeeds; the empty-list failure of that branch is unreachable. -/
theorem C10_eviction_branch_safe {c : LRUCache} (hW : Wf c)
    (hcap : 1 ≤ c.capacity) {k : Int}
    (hnew : lookupFst c.keyToNode k = none)
    (hfull : c.capacity = (c.keyToNode.length : Int)) (v : Int) :
    c.priorityQ ≠ [] ∧ ∃ c', c.put k v = some c' := by
  constructor
  · intro hnil
    have hlen := hW.len_eq
    rw [hnil] at hlen
    simp only [List.length_nil] at hlen
    rw [hlen] at hfull
    simp only [Nat.cast_zero] at hfull
    omega
  · exact put_isSome hW hcap k v

theorem C10_eviction_branch_safe_witness :
    ({ capacity := 1, priorityQ := [(0, ⟨1, 10⟩)], keyToNode := [(1, 0)],
       nextId := 1 } : LRUCache).priorityQ ≠ [] := by
  exact (C10_eviction_branch_safe (wf_single 1 1 10) (by decide)
    (show lookupFst [((1 : Int), (0 : Nat))] 2 = none by decide)
    (by decide) 7).1

/-! ### Recency / eviction order (C1) -/

/-- C1 counterexample: capacity 2, calls `put 1 10; put 2 20; get 1;
put 3 30`.  After `put 2 20` the cached keys are 1 and 2, and key 2 is
never touched again; yet `put 3 30` evicts key 2 while key 1 — present when
2 was touched — is still cached at the end.  So a freshly touched key is
*not* always evicted last when only touches of that key itself are
forbidden: touching another cached key (`get 1`) reorders the eviction. -/
theorem C1_counterexample :
    ((mkLRUCache 2).run [Op.put 1 10, Op.put 2 20, Op.get 1, Op.put 3 30]).map
        (fun c => (lookupFst c.keyToNode 2, (lookupFst c.keyToNode 1).isSome)) =
      some (none, true) := by decide

theorem run_cons_of_step {c c1 : LRUCache} {op : Op} (hs : c.step op = some c1)
    {p : List Op} {c'' : LRUCache} (hr : LRUCache.run c1 p = some c'') :
    LRUCache.run c (op :: p) = some c'' := by
  simp only [LRUCache.run, hs]
  exact hr

theorem isPrefix_cons {p ops : List Op} (op : Op) (h : List.IsPrefix p ops) :
    List.IsPrefix (op :: p) (op :: ops) := by
  obtain ⟨t, rfl⟩ := h
  exact ⟨t, rfl⟩

/-- A sequence of further calls after the moment of interest: the
distinguished key `k` is never touched again, and no key of `S` (the keys
cached at that moment) is touched while still cached — misses on evicted
keys and operations on fresh keys are allowed. -/
inductive UntouchedRun (k : Int) (S : List Int) :
    LRUCache → List Op → LRUCache → Prop
  | nil (c : LRUCache) : UntouchedRun k S c [] c
  | get (c c' cf : LRUCache) (ops : List Op) (k' v : Int) :
      k' ≠ k → (k' ∈ S → lookupFst c.keyToNode k' = none) →
      c.get k' = some (v, c') → UntouchedRun k S c' ops cf →
      UntouchedRun k S c (Op.get k' :: ops) cf
  | put (c c' cf : LRUCache) (ops : List Op) (k' v : Int) :
      k' ≠ k → (k' ∈ S → lookupFst c.keyToNode k' = none) →
      c.put k' v = some c' → UntouchedRun k S c' ops cf →
      UntouchedRun k S c (Op.put k' v :: ops) cf

/-- Workhorse for the amended C1.  Invariant: the recency list is some tail
`q.drop n` of the original list `q` (whose back node holds `k`) followed by
nodes whose keys never include `k`.  Whenever `k` is gone at the end of the
run, every key still in the surviving tail was evicted at some prefix of
the run. -/
theorem evicted_last_aux {k : Int} {q : List (Nat × Node)} {e : Nat × Node}
    (hek : e.2.key = k) {q0 : List (Nat × Node)} (hqe : q = q0 ++ [e]) :
    ∀ {c : LRUCache} {ops : List Op} {cf : LRUCache},
      UntouchedRun k (qKeys q) c ops cf →
      ∀ (n : Nat) (rest : List (Nat × Node)), Wf c →
        c.priorityQ = q.drop n ++ rest → k ∉ qKeys rest →
        lookupFst cf.keyToNode k = none →
        ∀ j ∈ qKeys (q.drop n), ∃ p, List.IsPrefix p ops ∧
          ∃ c'', LRUCache.run c p = some c'' ∧
            lookupFst c''.keyToNode j = none := by
  intro c ops cf h
  induction h with
  | nil c =>
    intro n rest hW hQ hkrest hfin j hj
    exfalso
    have hne : q.drop n ≠ [] := by
      intro hnil
      rw [hnil] at hj
      exact absurd hj (by simp [qKeys])
    have hnlt : n < q.length := by
      by_contra hle
      exact hne (List.drop_eq_nil_iff.mpr (by omega))
    have hnle : n ≤ q0.length := by
      rw [hqe] at hnlt
      simp only [List.length_append, List.length_cons, List.length_nil] at hnlt
      omega
    have hemem : e ∈ q.drop n := by
      rw [hqe, List.drop_append_eq_append_drop]
      have h0 : n - q0.length = 0 := by omega
      rw [h0]
      simp
    have hkc : k ∈ qKeys c.priorityQ := by
      rw [hQ, qKeys_append]
      exact List.mem_append_left _ (List.mem_map.mpr ⟨e, hemem, hek⟩)
    exact (wf_lookup_none_iff hW k).mp hfin hkc
  | get c c' cf ops k' v hkne hS hg hrun ih =>
    intro n rest hW hQ hkrest hfin j hj
    have hstep : c.step (Op.get k') = some c' := by
      simp [LRUCache.step, hg]
    cases hlk : lookupFst c.keyToNode k' with
    | none =>
      have hcc : c' = c := by
        rw [get_miss_eq hlk] at hg
        exact ((Prod.mk.inj (Option.some.inj hg)).2).symm
      subst hcc
      obtain ⟨p, hp, c'', hr, habs⟩ := ih n rest hW hQ hkrest hfin j hj
      exact ⟨Op.get k' :: p, isPrefix_cons _ hp, c'',
        run_cons_of_step hstep hr, habs⟩
    | some id =>
      have hk'S : k' ∉ qKeys q := by
        intro hin
        rw [hS hin] at hlk
        cases hlk
      obtain ⟨nd', hq', hk'key⟩ := wf_lookup_deref hW hlk
      have hWX := wf_hit_step hW hlk hq' nd'.val
      have hg' := get_hit_eq hlk hq'
      rw [hg'] at hg
      have hc' := (Prod.mk.inj (Option.some.inj hg)).2
      have hidnot : ∀ b, ((id, b) ∈ q.drop n → False) := by
        intro b hb
        have hbq : (id, b) ∈ c.priorityQ := by
          rw [hQ]
          exact List.mem_append_left _ hb
        have hbnd : b = nd' :=
          fst_inj_of_nodup hW.nodupIds hbq (mem_of_lookupFst_eq_some hq')
        subst hbnd
        apply hk'S
        have hsub : List.Sublist (qKeys (q.drop n)) (qKeys q) := by
          unfold qKeys
          exact (List.drop_sublist n q).map _
        exact hsub.mem (List.mem_map.mpr ⟨(id, b), hb, hk'key⟩)
      have hQX : (eraseFst c.priorityQ id ++ [(c.nextId, (⟨k', nd'.val⟩ : Node))]) =
          q.drop n ++ (eraseFst rest id ++ [(c.nextId, (⟨k', nd'.val⟩ : Node))]) := by
        rw [hQ, eraseFst_append,
          eraseFst_eq_self_of_not_mem (fun b hb => hidnot b hb),
          List.append_assoc]
      have hkrest' :
          k ∉ qKeys (eraseFst rest id ++ [(c.nextId, (⟨k', nd'.val⟩ : Node))]) := by
        rw [qKeys_append]
        intro hmem
        rcases List.mem_append.mp hmem with hmem | hmem
        · apply hkrest
          have hsub : List.Sublist (qKeys (eraseFst rest id)) (qKeys rest) := by
            unfold qKeys
            exact (eraseFst_sublist rest id).map _
          exact hsub.mem hmem
        · simp only [qKeys, List.map_cons, List.map_nil,
            List.mem_singleton] at hmem
          exact hkne (hmem.symm)
      obtain ⟨p, hp, c'', hr, habs⟩ := by
        refine ih n (eraseFst rest id ++ [(c.nextId, (⟨k', nd'.val⟩ : Node))]) ?_ ?_
          hkrest' hfin j hj
        · rw [← hc']
          exact hWX
        · rw [← hc']
          exact hQX
      exact ⟨Op.get k' :: p, isPrefix_cons _ hp, c'',
        run_cons_of_step hstep hr, habs⟩
  | put c c' cf ops k' v hkne hS hput hrun ih =>
    intro n rest hW hQ hkrest hfin j hj
    have hstep : c.step (Op.put k' v) = some c' := by
      simpa [LRUCache.step] using hput
    cases hlk : lookupFst c.keyToNode k' with
    | some id =>
      have hk'S : k' ∉ qKeys q := by
        intro hin
        rw [hS hin] at hlk
        cases hlk
      obtain ⟨nd', hq', hk'key⟩ := wf_lookup_deref hW hlk
      have hWX := wf_hit_step hW hlk hq' v
      have hp' := put_hit_eq (v := v) hlk hq'
      rw [hp'] at hput
      have hc' := Option.some.inj hput
      have hidnot : ∀ b, ((id, b) ∈ q.drop n → False) := by
        intro b hb
        have hbq : (id, b) ∈ c.priorityQ := by
          rw [hQ]
          exact List.mem_append_left _ hb
        have hbnd : b = nd' :=
          fst_inj_of_nodup hW.nodupIds hbq (mem_of_lookupFst_eq_some hq')
        subst hbnd
        apply hk'S
        have hsub : List.Sublist (qKeys (q.drop n)) (qKeys q) := by
          unfold qKeys
          exact (List.drop_sublist n q).map _
        exact hsub.mem (List.mem_map.mpr ⟨(id, b), hb, hk'key⟩)
      have hQX : (eraseFst c.priorityQ id ++ [(c.nextId, (⟨k', v⟩ : Node))]) =
          q.drop n ++ (eraseFst rest id ++ [(c.nextId, (⟨k', v⟩ : Node))]) := by
        rw [hQ, eraseFst_append,
          eraseFst_eq_self_of_not_mem (fun b hb => hidnot b hb),
          List.append_assoc]
      have hkrest' :
          k ∉ qKeys (eraseFst rest id ++ [(c.nextId, (⟨k', v⟩ : Node))]) := by
        rw [qKeys_append]
        intro hmem
        rcases List.mem_append.mp hmem with hmem | hmem
        · apply hkrest
          have hsub : List.Sublist (qKeys (eraseFst rest id)) (qKeys rest) := by
            unfold qKeys
            exact (eraseFst_sublist rest id).map _
          exact hsub.mem hmem
        · simp only [qKeys, List.map_cons, List.map_nil,
            List.mem_singleton] at hmem
          exact hkne (hmem.symm)
      obtain ⟨p, hp, c'', hr, habs⟩ := by
        refine ih n (eraseFst rest id ++ [(c.nextId, (⟨k', v⟩ : Node))]) ?_ ?_
          hkrest' hfin j hj
        · rw [← hc']
          exact hWX
        · rw [← hc']
          exact hQX
      exact ⟨Op.put k' v :: p, isPrefix_cons _ hp, c'',
        run_cons_of_step hstep hr, habs⟩
    | none =>
      by_cases hcap : c.capacity = (c.keyToNode.length : Int)
      · cases hdn : q.drop n with
        | nil =>
          rw [hdn] at hj
          exact absurd hj (by simp [qKeys])
        | cons fr drest =>
          have hQc : c.priorityQ = fr :: (drest ++ rest) := by
            rw [hQ, hdn, List.cons_append]
          have hfr : fr ∈ c.priorityQ := by
            rw [hQc]
            exact List.mem_cons_self _ _
          have hfe : lookupFst c.keyToNode fr.2.key = some fr.1 :=
            lookupFst_eq_some_of_mem hW.nodupM (hW.q_to_map fr.1 fr.2 hfr)
          have hWX := wf_full_step hW hlk hQc hfe v
          have hp' := put_new_full_eq (v := v) hlk hcap hQc hfe
          rw [hp'] at hput
          have hc' := Option.some.inj hput
          have hdrest : drest = q.drop (n + 1) := by
            have ht := List.tail_drop q n
            rw [hdn] at ht
            simpa using ht
          have hfrk : fr.2.key ∉ qKeys (drest ++ rest) := by
            have hnd := hW.nodupKeys
            rw [hQc] at hnd
            simp only [qKeys, List.map_cons] at hnd
            exact (List.nodup_cons.mp hnd).1
          have hfrkne : fr.2.key ≠ k' := by
            intro he
            rw [← he] at hlk
            rw [hfe] at hlk
            cases hlk
          have hfrabs :
              lookupFst ((⟨c.capacity,
                (drest ++ rest) ++ [(c.nextId, (⟨k', v⟩ : Node))],
                eraseFst c.keyToNode fr.2.key ++ [(k', c.nextId)],
                c.nextId + 1⟩ : LRUCache)).keyToNode fr.2.key = none := by
            refine (wf_lookup_none_iff hWX fr.2.key).mpr ?_
            show fr.2.key ∉ qKeys ((drest ++ rest) ++ [(c.nextId, (⟨k', v⟩ : Node))])
            rw [qKeys_append]
            intro hmem
            rcases List.mem_append.mp hmem with hmem | hmem
            · exact hfrk hmem
            · simp only [qKeys, List.map_cons, List.map_nil,
                List.mem_singleton] at hmem
              exact hfrkne hmem
          rw [hdn] at hj
          simp only [qKeys, List.map_cons] at hj
          rcases List.mem_cons.mp hj with hj | hj
          · refine ⟨[Op.put k' v], ⟨ops, rfl⟩, c', ?_, ?_⟩
            · exact run_cons_of_step hstep rfl
            · rw [← hc', hj]
              exact hfrabs
          · have hQX : ((drest ++ rest) ++ [(c.nextId, (⟨k', v⟩ : Node))]) =
                q.drop (n + 1) ++ (rest ++ [(c.nextId, (⟨k', v⟩ : Node))]) := by
              rw [← hdrest, List.append_assoc]
            have hkrest' :
                k ∉ qKeys (rest ++ [(c.nextId, (⟨k', v⟩ : Node))]) := by
              rw [qKeys_append]
              intro hmem
              rcases List.mem_append.mp hmem with hmem | hmem
              · exact hkrest hmem
              · simp only [qKeys, List.map_cons, List.map_nil,
                  List.mem_singleton] at hmem
                exact hkne (hmem.symm)
            obtain ⟨p, hp, c'', hr, habs⟩ := by
              refine ih (n + 1) (rest ++ [(c.nextId, (⟨k', v⟩ : Node))]) ?_ ?_
                hkrest' hfin j ?_
              · rw [← hc']
                exact hWX
              · rw [← hc']
                exact hQX
              · rw [← hdrest]
                exact List.mem_map.mp hj |>.elim
                  (fun x hx => List.mem_map.mpr ⟨x, hx.1, hx.2⟩)
            exact ⟨Op.put k' v :: p, isPrefix_cons _ hp, c'',
              run_cons_of_step hstep hr, habs⟩
      · have hWX := wf_room_step hW hlk v
        have hp' := put_new_room_eq (v := v) hlk hcap
        rw [hp'] at hput
        have hc' := Option.some.inj hput
        have hQX : (c.priorityQ ++ [(c.nextId, (⟨k', v⟩ : Node))]) =
            q.drop n ++ (rest ++ [(c.nextId, (⟨k', v⟩ : Node))]) := by
          rw [hQ, List.append_assoc]
        have hkrest' :
            k ∉ qKeys (rest ++ [(c.nextId, (⟨k', v⟩ : Node))]) := by
          rw [qKeys_append]
          intro hmem
          rcases List.mem_append.mp hmem with hmem | hmem
          · exact hkrest hmem
          · simp only [qKeys, List.map_cons, List.map_nil,
              List.mem_singleton] at hmem
            exact hkne (hmem.symm)
        obtain ⟨p, hp, c'', hr, habs⟩ := by
          refine ih n (rest ++ [(c.nextId, (⟨k', v⟩ : Node))]) ?_ ?_
            hkrest' hfin j hj
          · rw [← hc']
            exact hWX
          · rw [← hc']
            exact hQX
        exact ⟨Op.put k' v :: p, isPrefix_cons _ hp, c'',
          run_cons_of_step hstep hr, habs⟩

theorem run_append (c : LRUCache) (a b : List Op) :
    c.run (a ++ b) = match c.run a with
      | none => none
      | some c1 => c1.run b := by
  induction a generalizing c with
  | nil => rfl
  | cons op ops ih =>
    show LRUCache.run c (op :: (ops ++ b)) = _
    simp only [LRUCache.run]
    cases c.step op with
    | none => rfl
    | some c1 => exact ih c1

/-- Filling a cache with fresh, distinct keys within capacity: every `put`
appends, so the key order is the insertion order and nothing is evicted. -/
theorem run_puts_fresh (pairs : List (Int × Int)) :
    ∀ {c : LRUCache}, Wf c →
      (pairs.map Prod.fst).Nodup →
      (∀ p ∈ pairs, p.1 ∉ qKeys c.priorityQ) →
      ((c.keyToNode.length : Int) + pairs.length ≤ c.capacity) →
      ∃ cf, c.run (pairs.map (fun p => Op.put p.1 p.2)) = some cf ∧ Wf cf ∧
        qKeys cf.priorityQ = qKeys c.priorityQ ++ pairs.map Prod.fst ∧
        cf.capacity = c.capacity ∧
        cf.keyToNode.length = c.keyToNode.length + pairs.length := by
  induction pairs with
  | nil =>
    intro c hW _ _ _
    exact ⟨c, rfl, hW, by simp, rfl, by simp⟩
  | cons pr prs ih =>
    intro c hW hnd hfresh hsize
    have hlk : lookupFst c.keyToNode pr.1 = none :=
      (wf_lookup_none_iff hW pr.1).mpr (hfresh pr (List.mem_cons_self _ _))
    have hcapne : c.capacity ≠ (c.keyToNode.length : Int) := by
      simp only [List.length_cons] at hsize
      push_cast at hsize
      intro he
      omega
    have hp' := put_new_room_eq (v := pr.2) hlk hcapne
    have hW1 := wf_room_step hW hlk pr.2
    have hfresh1 : ∀ p ∈ prs, p.1 ∉
        qKeys (c.priorityQ ++ [(c.nextId, (⟨pr.1, pr.2⟩ : Node))]) := by
      intro p hp hmem
      rw [qKeys_append] at hmem
      rcases List.mem_append.mp hmem with hmem | hmem
      · exact hfresh p (List.mem_cons_of_mem _ hp) hmem
      · simp only [qKeys, List.map_cons, List.map_nil,
          List.mem_singleton] at hmem
        exact (List.nodup_cons.mp hnd).1
          (hmem ▸ List.mem_map.mpr ⟨p, hp, rfl⟩)
    have hsize1 : (((c.keyToNode ++ [(pr.1, c.nextId)]).length : Int)
        + prs.length ≤ c.capacity) := by
      simp only [List.length_cons, List.length_append, List.length_nil] at hsize ⊢
      push_cast at hsize ⊢
      omega
    obtain ⟨cf, hr, hWf, hkeys, hcap, hlen⟩ := ih hW1 (List.nodup_cons.mp hnd).2
      hfresh1 hsize1
    have hstep : c.step (Op.put pr.1 pr.2) = some
        { c with
          priorityQ := c.priorityQ ++ [(c.nextId, (⟨pr.1, pr.2⟩ : Node))]
          keyToNode := c.keyToNode ++ [(pr.1, c.nextId)]
          nextId := c.nextId + 1 } := by
      simpa [LRUCache.step] using hp'
    refine ⟨cf, ?_, hWf, ?_, hcap, ?_⟩
    · show LRUCache.run c (Op.put pr.1 pr.2 :: prs.map (fun p => Op.put p.1 p.2))
        = some cf
      exact run_cons_of_step hstep hr
    · rw [hkeys, qKeys_append]
      simp [qKeys]
    · rw [hlen]
      simp only [List.length_append, List.length_cons, List.length_nil]
      omega

/-- C1 amended.  Part (i): after `put k v` or a hitting `get k` on a
well-formed cache, `k` is not evicted until every key cached at that moment
has been evicted at some earlier point, provided no key cached at that
moment (including `k`) is touched while it is still cached — the original
claim, which forbids only touches of `k` itself, is refuted by
`C1_counterexample`.  Part (ii): inserting `C + 1` distinct keys into a
fresh cache of capacity `C` with no intervening reads evicts exactly the
first-inserted key. -/
theorem C1_recency_eviction_order :
    (∀ (c0 c cf : LRUCache) (k r v : Int) (ops : List Op),
      Wf c0 →
      (c0.put k v = some c ∨
        ((lookupFst c0.keyToNode k).isSome ∧ c0.get k = some (r, c))) →
      UntouchedRun k (qKeys c.priorityQ) c ops cf →
      lookupFst cf.keyToNode k = none →
      ∀ j ∈ qKeys c.priorityQ, ∃ p, List.IsPrefix p ops ∧
        ∃ c'', LRUCache.run c p = some c'' ∧
          lookupFst c''.keyToNode j = none) ∧
    (∀ (cap : Int) (pairs : List (Int × Int)) (cf : LRUCache),
      1 ≤ cap → (pairs.map Prod.fst).Nodup →
      (pairs.length : Int) = cap + 1 →
      (mkLRUCache cap).run (pairs.map (fun p => Op.put p.1 p.2)) = some cf →
      qKeys cf.priorityQ = (pairs.map Prod.fst).tail) := by
  constructor
  · intro c0 c cf k r v ops hW0 htouch hrun hfin j hj
    have hW : Wf c := by
      rcases htouch with hput | ⟨hm, hget⟩
      · exact wf_put hW0 hput
      · exact wf_get hW0 hget
    have hshape : ∃ q0 e, c.priorityQ = q0 ++ [e] ∧ e.2.key = k := by
      rcases htouch with hput | ⟨hm, hget⟩
      · obtain ⟨q0, m0, hq, _, _, _, _, _⟩ := put_shape hW0 hput
        exact ⟨q0, _, hq, rfl⟩
      · obtain ⟨id, hid⟩ := Option.isSome_iff_exists.mp hm
        obtain ⟨nd, hq', _⟩ := wf_lookup_deref hW0 hid
        have heq := (get_hit_eq hid hq').symm.trans hget
        have hc := (Prod.mk.inj (Option.some.inj heq)).2
        refine ⟨eraseFst c0.priorityQ id, (c0.nextId, ⟨k, nd.val⟩), ?_, rfl⟩
        rw [← hc]
    obtain ⟨q0, e, hq, hek⟩ := hshape
    have haux := evicted_last_aux hek hq hrun 0 [] hW (by simp)
      (by simp [qKeys]) hfin
    refine haux j ?_
    rw [List.drop_zero]
    exact hj
  · intro cap pairs cf hcap hnd hlen hr
    rcases List.eq_nil_or_concat pairs with rfl | ⟨init, lastp, hpe⟩
    · simp at hlen
      omega
    · rw [List.concat_eq_append] at hpe
      subst hpe
      rw [List.map_append] at hnd
      have hnd_init : (init.map Prod.fst).Nodup := (List.nodup_append.mp hnd).1
      have hlast_not : lastp.1 ∉ init.map Prod.fst := by
        intro hmem
        exact (List.nodup_append.mp hnd).2.2 hmem (by simp)
      have hinit_len : (init.length : Int) = cap := by
        simp only [List.length_append, List.length_cons, List.length_nil] at hlen
        push_cast at hlen
        omega
      obtain ⟨cf1, hr1, hW1, hkeys1, hcap1, hlen1⟩ :=
        run_puts_fresh init (wf_mk cap) hnd_init
          (by simp [mkLRUCache, qKeys])
          (by simp only [mkLRUCache, List.length_nil]; push_cast; omega)
      simp only [mkLRUCache] at hkeys1 hcap1 hlen1
      simp only [qKeys, List.map_nil, List.nil_append, List.length_nil,
        Nat.zero_add] at hkeys1 hlen1
      have hlk : lookupFst cf1.keyToNode lastp.1 = none := by
        refine (wf_lookup_none_iff hW1 lastp.1).mpr ?_
        rw [show qKeys cf1.priorityQ = init.map Prod.fst from hkeys1]
        exact hlast_not
      have hcapeq : cf1.capacity = (cf1.keyToNode.length : Int) := by
        rw [hcap1, hlen1, ← hinit_len]
      cases hqe : cf1.priorityQ with
      | nil =>
        exfalso
        rw [hqe] at hkeys1
        simp only [qKeys, List.map_nil] at hkeys1
        have : init = [] := by
          cases init with
          | nil => rfl
          | cons a l => cases hkeys1
        rw [this] at hinit_len
        simp at hinit_len
        omega
      | cons fr restQ =>
        have hfr : fr ∈ cf1.priorityQ := by
          rw [hqe]
          exact List.mem_cons_self _ _
        have hfe : lookupFst cf1.keyToNode fr.2.key = some fr.1 :=
          lookupFst_eq_some_of_mem hW1.nodupM (hW1.q_to_map fr.1 fr.2 hfr)
        have hput' := put_new_full_eq (v := lastp.2) hlk hcapeq hqe hfe
        have hrun_eq : (mkLRUCache cap).run
            ((init ++ [lastp]).map (fun p => Op.put p.1 p.2)) = some
            { cf1 with
              priorityQ := restQ ++ [(cf1.nextId, ⟨lastp.1, lastp.2⟩)]
              keyToNode := eraseFst cf1.keyToNode fr.2.key ++ [(lastp.1, cf1.nextId)]
              nextId := cf1.nextId + 1 } := by
          rw [List.map_append, run_append, hr1]
          show LRUCache.run cf1 [Op.put lastp.1 lastp.2] = _
          simp only [LRUCache.run, LRUCache.step, hput']
        rw [hrun_eq] at hr
        obtain rfl := (Option.some.inj hr).symm
        rw [hqe] at hkeys1
        simp only [qKeys, List.map_cons] at hkeys1
        show qKeys (restQ ++ [(cf1.nextId, (⟨lastp.1, lastp.2⟩ : Node))]) =
          ((init ++ [lastp]).map Prod.fst).tail
        rw [List.map_append, ← hkeys1]
        simp [qKeys]

theorem C1_recency_eviction_order_witness :
    (∃ p, List.IsPrefix p [Op.put 2 20, Op.put 3 30] ∧
      ∃ c'', LRUCache.run
          ({ capacity := 2, priorityQ := [(0, ⟨1, 10⟩)], keyToNode := [(1, 0)], nextId := 1 } : LRUCache) p = some c'' ∧
        lookupFst c''.keyToNode 1 = none) ∧
    (∃ cf, (mkLRUCache 1).run [Op.put 1 5, Op.put 2 6] = some cf ∧
      qKeys cf.priorityQ = [2]) := by
  constructor
  · have hrun : UntouchedRun 1
        (qKeys ({ capacity := 2, priorityQ := [(0, ⟨1, 10⟩)], keyToNode := [(1, 0)], nextId := 1 } : LRUCache).priorityQ)
        { capacity := 2, priorityQ := [(0, ⟨1, 10⟩)], keyToNode := [(1, 0)], nextId := 1 }
        [Op.put 2 20, Op.put 3 30]
        { capacity := 2, priorityQ := [(1, ⟨2, 20⟩), (2, ⟨3, 30⟩)], keyToNode := [(2, 1), (3, 2)], nextId := 3 } := by
      refine UntouchedRun.put _
        { capacity := 2, priorityQ := [(0, ⟨1, 10⟩), (1, ⟨2, 20⟩)], keyToNode := [(1, 0), (2, 1)], nextId := 2 } _ _ 2 20
        (by decide) (fun hm => absurd hm (by decide)) (by decide) ?_
      refine UntouchedRun.put _
        { capacity := 2, priorityQ := [(1, ⟨2, 20⟩), (2, ⟨3, 30⟩)], keyToNode := [(2, 1), (3, 2)], nextId := 3 } _ _ 3 30
        (by decide) (fun hm => absurd hm (by decide)) (by decide) ?_
      exact UntouchedRun.nil _
    have happ := C1_recency_eviction_order.1 (mkLRUCache 2)
      { capacity := 2, priorityQ := [(0, ⟨1, 10⟩)], keyToNode := [(1, 0)], nextId := 1 }
      { capacity := 2, priorityQ := [(1, ⟨2, 20⟩), (2, ⟨3, 30⟩)], keyToNode := [(2, 1), (3, 2)], nextId := 3 }
      1 0 10 [Op.put 2 20, Op.put 3 30] (wf_mk 2) (Or.inl (by decide)) hrun
      (by decide)
    exact happ 1 (by decide)
  · cases hr : (mkLRUCache 1).run [Op.put 1 5, Op.put 2 6] with
    | none => exact absurd hr (by decide)
    | some cf =>
      refine ⟨cf, rfl, ?_⟩
      have happ := C1_recency_eviction_order.2 1 [(1, 5), (2, 6)] cf (by decide)
        (by decide) (by decide) hr
      simpa using happ

end LRUSpec
